import Mathlib

/-!
Verification development for the VTT timecode processor
(`vtt_processor.py`).  The timecode rewriting, SRT-to-VTT conversion,
file-name derivation, output naming and batch accounting logic are
embedded as executable Lean functions over `List Char`; regular
expression scanning (`re.search` / `re.sub` over the fixed-width
timecode patterns) is modelled as an explicit left-to-right,
non-overlapping scan.  Digits are modelled as ASCII digits
(`Char.isDigit`).
-/

namespace VTTProc

/-- Two characters are digit-similar: equal, or both digits.  Replacing a
digit by a digit at some position never changes whether the fixed
timecode pattern matches at any position. -/
def digitRel (a b : Char) : Prop := a = b ∨ (a.isDigit = true ∧ b.isDigit = true)

/-- Relation between a character of an input line and the corresponding
character of its comma-to-period rewrite: unchanged, or a comma turned
into a period. -/
def commaRel (a b : Char) : Prop := a = b ∨ (a = ',' ∧ b = '.')

/-- A timecode `HH:MM:SS?mmm` decomposed into its nine digit characters
(the separator before the milliseconds is supplied at rendering time). -/
structure TC where
  h1 : Char
  h2 : Char
  m1 : Char
  m2 : Char
  s1 : Char
  s2 : Char
  ms1 : Char
  ms2 : Char
  ms3 : Char
  deriving DecidableEq

/-- Render a timecode with the given millisecond separator
(`'.'` for VTT, `','` for SRT): 12 characters `HH:MM:SSxmmm`. -/
def TC.renderSep (sep : Char) (t : TC) : List Char :=
  [t.h1, t.h2, ':', t.m1, t.m2, ':', t.s1, t.s2, sep, t.ms1, t.ms2, t.ms3]

/-- All nine timecode characters are ASCII digits. -/
def TC.digitsOk (t : TC) : Bool :=
  t.h1.isDigit && (t.h2.isDigit && (t.m1.isDigit && (t.m2.isDigit &&
    (t.s1.isDigit && (t.s2.isDigit && (t.ms1.isDigit && (t.ms2.isDigit &&
      t.ms3.isDigit)))))))

/-- Force the hour field of a timecode to `00`, leaving the other fields
unchanged. -/
def TC.zero (t : TC) : TC := { t with h1 := '0', h2 := '0' }

/-- A full VTT timecode range `HH:MM:SS.mmm --> HH:MM:SS.mmm`
(29 characters), the shape matched by `VTT_TIMECODE_PATTERN`. -/
def rangeRender (a b : TC) : List Char :=
  [a.h1, a.h2, ':', a.m1, a.m2, ':', a.s1, a.s2, '.', a.ms1, a.ms2, a.ms3,
   ' ', '-', '-', '>', ' ',
   b.h1, b.h2, ':', b.m1, b.m2, ':', b.s1, b.s2, '.', b.ms1, b.ms2, b.ms3]

/-- Attempt to match `VTT_TIMECODE_PATTERN`
(`(\d{2}):(\d{2}):(\d{2}\.\d{3}) --> (\d{2}):(\d{2}):(\d{2}\.\d{3})`)
at the head of the character list.  On success, return the hour-zeroed
replacement `00:{mm1}:{ss1} --> 00:{mm2}:{ss2}` built from the match
groups as in `adjust_timecode_vtt`, together with the characters after
the 29-character match. -/
def vttMatchAt : List Char → Option (List Char × List Char)
  | a1 :: a2 :: a3 :: a4 :: a5 :: a6 :: a7 :: a8 :: a9 :: a10 :: a11 :: a12 ::
    a13 :: a14 :: a15 :: a16 :: a17 ::
    b1 :: b2 :: b3 :: b4 :: b5 :: b6 :: b7 :: b8 :: b9 :: b10 :: b11 :: b12 ::
    rest =>
    if a1.isDigit && (a2.isDigit && ((a3 == ':') && (a4.isDigit &&
       (a5.isDigit && ((a6 == ':') && (a7.isDigit && (a8.isDigit &&
       ((a9 == '.') && (a10.isDigit && (a11.isDigit && (a12.isDigit &&
       ((a13 == ' ') && ((a14 == '-') && ((a15 == '-') && ((a16 == '>') &&
       ((a17 == ' ') && (b1.isDigit && (b2.isDigit && ((b3 == ':') &&
       (b4.isDigit && (b5.isDigit && ((b6 == ':') && (b7.isDigit &&
       (b8.isDigit && ((b9 == '.') && (b10.isDigit && (b11.isDigit &&
       b12.isDigit)))))))))))))))))))))))))))
    then some (['0', '0', ':', a4, a5, ':', a7, a8, '.', a10, a11, a12,
               ' ', '-', '-', '>', ' ',
               '0', '0', ':', b4, b5, ':', b7, b8, '.', b10, b11, b12], rest)
    else none
  | _ => none

/-- Model of `re.search` of the VTT pattern over a line: the hour-zeroed
replacement built from the first (leftmost) match, if any. -/
def vttSearch : List Char → Option (List Char)
  | [] => none
  | c :: cs =>
    match vttMatchAt (c :: cs) with
    | some (m, _) => some m
    | none => vttSearch cs

/-- Fuel-indexed worker for `re.sub` of the VTT pattern: replace every
non-overlapping match, scanning left to right, by the fixed replacement
string `r`.  The fuel is an upper bound on the number of scan steps. -/
def vttSubstGo (r : List Char) : Nat → List Char → List Char
  | 0, l => l
  | _ + 1, [] => []
  | fuel + 1, c :: cs =>
    match vttMatchAt (c :: cs) with
    | some (_, rest) => r ++ vttSubstGo r fuel rest
    | none => c :: vttSubstGo r fuel cs

/-- Model of `VTT_TIMECODE_PATTERN.sub` with replacement `r`: replace every non-overlapping
match of the VTT range pattern by the fixed string `r`. -/
def vttSubst (r l : List Char) : List Char := vttSubstGo r l.length l

/-- Embedding of `FileProcessor.adjust_timecode_vtt`: search for the VTT range
pattern; if found, build the hour-zeroed replacement from the first
match's groups and substitute it for every match in the line; otherwise
return the line unchanged. -/
def adjust_timecode_vtt (l : List Char) : List Char :=
  match vttSearch l with
  | some nt => vttSubst nt l
  | none => l

/-- Attempt to match `SRT_TIMECODE_PATTERN`
(`(\d{2}):(\d{2}):(\d{2}),(\d{3})`) at the head of the list.  On
success, return the comma-to-period rewrite
`{g1}:{g2}:{g3}.{g4}` of the 12 matched characters and the rest. -/
def srtMatchAt : List Char → Option (List Char × List Char)
  | a1 :: a2 :: a3 :: a4 :: a5 :: a6 :: a7 :: a8 :: a9 :: a10 :: a11 :: a12 ::
    rest =>
    if a1.isDigit && (a2.isDigit && ((a3 == ':') && (a4.isDigit &&
       (a5.isDigit && ((a6 == ':') && (a7.isDigit && (a8.isDigit &&
       ((a9 == ',') && (a10.isDigit && (a11.isDigit && a12.isDigit))))))))))
    then some ([a1, a2, ':', a4, a5, ':', a7, a8, '.', a10, a11, a12], rest)
    else none
  | _ => none

/-- Fuel-indexed worker for the SRT comma-to-period substitution. -/
def srtSubGo : Nat → List Char → List Char
  | 0, l => l
  | _ + 1, [] => []
  | fuel + 1, c :: cs =>
    match srtMatchAt (c :: cs) with
    | some (m, rest) => m ++ srtSubGo fuel rest
    | none => c :: srtSubGo fuel cs

/-- The per-line punctuation normalization performed inside
`convert_srt_to_vtt`: `SRT_TIMECODE_PATTERN.sub` with the
group-preserving comma-to-period replacement. -/
def srtSub (l : List Char) : List Char := srtSubGo l.length l

/-- Fuel-indexed worker computing the positions at which the
left-to-right non-overlapping SRT scan replaces a match. -/
def srtScanPtsGo : Nat → List Char → List Nat
  | 0, _ => []
  | _ + 1, [] => []
  | fuel + 1, c :: cs =>
    match srtMatchAt (c :: cs) with
    | some (_, rest) => 0 :: (srtScanPtsGo fuel rest).map (· + 12)
    | none => (srtScanPtsGo fuel cs).map (· + 1)

/-- The positions (0-based) at which the SRT substitution scan replaces
a match in the line. -/
def srtScanPts (l : List Char) : List Nat := srtScanPtsGo l.length l

/-- The fixed VTT header written by `convert_srt_to_vtt`: the characters
of `WEBVTT` followed by two newline characters. -/
def WEBVTT_HEADER : List Char := ['W', 'E', 'B', 'V', 'T', 'T', '\n', '\n']

/-- Embedding of `FileProcessor.convert_srt_to_vtt`, modelled on the stream of source
lines (each line a character list, as produced by iterating the open
file): write the VTT header, then each line with the SRT punctuation
normalization applied, in order. -/
def convert_srt_to_vtt (ls : List (List Char)) : List Char :=
  WEBVTT_HEADER ++ (ls.map srtSub).flatten

/-- A tail of a line made of further VTT range occurrences: each segment
is a gap followed by a range; the final list is the remainder of the
line. -/
def vttSegsRender : List (List Char × TC × TC) → List Char → List Char
  | [], s => s
  | (q, a, b) :: rest, s => q ++ rangeRender a b ++ vttSegsRender rest s

/-- The same tail with every range occurrence replaced by the fixed
string `r`. -/
def vttSegsRepl (r : List Char) : List (List Char × TC × TC) → List Char → List Char
  | [], s => s
  | (q, _, _) :: rest, s => q ++ r ++ vttSegsRepl r rest s

/-- Well-formedness of a VTT segment tail: every range is made of
digits, and no match of the VTT pattern starts inside a gap or inside
the final remainder. -/
def vttSegsOk : List (List Char × TC × TC) → List Char → Bool
  | [], s => decide (∀ j, j < s.length → vttMatchAt (s.drop j) = none)
  | (q, a, b) :: rest, s =>
    a.digitsOk && (b.digitsOk &&
      (decide (∀ j, j < q.length →
        vttMatchAt ((q ++ rangeRender a b ++ vttSegsRender rest s).drop j) = none) &&
       vttSegsOk rest s))

/-- A line tail made of SRT timecode occurrences: each segment is a
timecode (rendered with a comma) followed by a gap. -/
def srtSegsRender : List (TC × List Char) → List Char
  | [] => []
  | (t, q) :: rest => TC.renderSep ',' t ++ q ++ srtSegsRender rest

/-- The same tail with every timecode rewritten with a period. -/
def srtSegsDotted : List (TC × List Char) → List Char
  | [] => []
  | (t, q) :: rest => TC.renderSep '.' t ++ q ++ srtSegsDotted rest

/-- Well-formedness of an SRT segment tail: every timecode is made of
digits and no match of the SRT pattern starts inside a gap. -/
def srtSegsOk : List (TC × List Char) → Bool
  | [] => true
  | (t, q) :: rest =>
    t.digitsOk &&
      (decide (∀ j, j < q.length →
        srtMatchAt ((q ++ srtSegsRender rest).drop j) = none) &&
       srtSegsOk rest)

/-- Fuel-indexed worker for Python `str.replace`: replace every
non-overlapping occurrence of `pat` by `rep`, scanning left to right. -/
def replaceAllGo (pat rep : List Char) : Nat → List Char → List Char
  | 0, l => l
  | _ + 1, [] => []
  | fuel + 1, c :: cs =>
    if pat ≠ [] ∧ pat.isPrefixOf (c :: cs) then
      rep ++ replaceAllGo pat rep fuel ((c :: cs).drop pat.length)
    else
      c :: replaceAllGo pat rep fuel cs

/-- Python `s.replace(pat, rep)` for a nonempty pattern: every
non-overlapping occurrence, anywhere in the string, is replaced. -/
def replaceAll (pat rep l : List Char) : List Char := replaceAllGo pat rep l.length l

/-- Base-name derivation for the zero-hour-VTT operation in
`process_files`: `file_name.replace(".mp4.vtt", "").replace(".vtt", "")`. -/
def baseNameVtt (name : List Char) : List Char :=
  replaceAll ".vtt".toList [] (replaceAll ".mp4.vtt".toList [] name)

/-- Base-name derivation for the SRT operation in `process_files`:
`file_name.replace(".srt", "")`. -/
def baseNameSrt (name : List Char) : List Char :=
  replaceAll ".srt".toList [] name

/-- Python `str.strip`: remove leading and trailing whitespace. -/
def pyStrip (s : List Char) : List Char :=
  ((s.dropWhile Char.isWhitespace).reverse.dropWhile Char.isWhitespace).reverse

/-- Decimal rendering of the 1-based index, as `f"{index}"` does:
no zero padding. -/
def natToChars (n : Nat) : List Char := (Nat.repr n).toList

/-- Model of `os.path.join` for the cases exercised here. -/
def pathJoin (d f : List Char) : List Char :=
  if d = [] then f
  else if d.getLast? = some '/' then d ++ f
  else d ++ '/' :: f

/-- Embedding of `VTTTimecodeZeroerApp.rename_file`.  The interactive
`simpledialog.askstring` answer is passed in as `answer`
(`none` models a cancelled dialog). -/
def rename_file (sequential : Bool) (prefixStr : List Char) (renameOpt : Bool)
    (answer : Option (List Char)) (output_directory file_name : List Char)
    (index : Nat) : List Char :=
  if sequential then
    let p := pyStrip prefixStr
    let newName := if p ≠ [] then p ++ natToChars index else natToChars index
    pathJoin output_directory (newName ++ ".vtt".toList)
  else if renameOpt then
    let newName :=
      match answer with
      | none => file_name
      | some a =>
        if pyStrip a = [] then file_name
        else pyStrip a ++ '_' :: natToChars index
    pathJoin output_directory (newName ++ ".vtt".toList)
  else
    pathJoin output_directory (file_name ++ '_' :: natToChars index ++ ".vtt".toList)

/-- The success/failure accounting loop of `process_files`: one boolean
outcome per file task, folded into `(processed_count, failed_count)`.
Both the sequential loop and the thread-pool loop fold the outcomes in
submission order with exactly this step. -/
def tally (outcomes : List Bool) : Nat × Nat :=
  outcomes.foldl (fun pf r => if r then (pf.1 + 1, pf.2) else (pf.1, pf.2 + 1)) (0, 0)

/-- The condition under which `process_files` takes the
`ThreadPoolExecutor` path. -/
def usesThreadPool (useThreads : Bool) (totalFiles : Nat) : Bool :=
  useThreads && decide (1 < totalFiles)

/-- The worker-pool size `min(os.cpu_count() or 2, 4)`;
`cpuCount = none` models `os.cpu_count()` returning `None`. -/
def poolWorkers (cpuCount : Option Nat) : Nat :=
  min (match cpuCount with
       | none => 2
       | some n => if n = 0 then 2 else n) 4

/-! ### Basic facts about the VTT pattern matcher -/

theorem vttMatchAt_nil : vttMatchAt [] = none := rfl

/-- Characterization of a successful VTT match: the input starts with a
well-formed 29-character range, and the computed replacement is that
range with both hour fields zeroed. -/
theorem vttMatchAt_some {l m r : List Char} (h : vttMatchAt l = some (m, r)) :
    ∃ a b : TC, a.digitsOk = true ∧ b.digitsOk = true ∧
      l = rangeRender a b ++ r ∧ m = rangeRender a.zero b.zero := by
  unfold vttMatchAt at h
  split at h
  next a1 a2 a3 a4 a5 a6 a7 a8 a9 a10 a11 a12 a13 a14 a15 a16 a17
       b1 b2 b3 b4 b5 b6 b7 b8 b9 b10 b11 b12 rest =>
    split at h
    next hcond =>
      simp only [Bool.and_eq_true, beq_iff_eq] at hcond
      obtain ⟨d1, d2, e3, d4, d5, e6, d7, d8, e9, d10, d11, d12,
        e13, e14, e15, e16, e17,
        f1, f2, g3, f4, f5, g6, f7, f8, g9, f10, f11, f12⟩ := hcond
      subst e3; subst e6; subst e9; subst e13; subst e14; subst e15
      subst e16; subst e17; subst g3; subst g6; subst g9
      rw [Option.some.injEq, Prod.mk.injEq] at h
      obtain ⟨hm, hr⟩ := h
      subst hr
      refine ⟨⟨a1, a2, a4, a5, a7, a8, a10, a11, a12⟩,
        ⟨b1, b2, b4, b5, b7, b8, b10, b11, b12⟩, ?_, ?_, ?_, ?_⟩
      · simp [TC.digitsOk, d1, d2, d4, d5, d7, d8, d10, d11, d12]
      · simp [TC.digitsOk, f1, f2, f4, f5, f7, f8, f10, f11, f12]
      · simp [rangeRender]
      · rw [← hm]; simp [rangeRender, TC.zero]
    next => exact absurd h (by simp)
  next => exact absurd h (by simp)

/-- A well-formed range at the head of the input always matches, and the
replacement is the hour-zeroed range. -/
theorem vttMatchAt_render (a b : TC) (w : List Char)
    (ha : a.digitsOk = true) (hb : b.digitsOk = true) :
    vttMatchAt (rangeRender a b ++ w) = some (rangeRender a.zero b.zero, w) := by
  simp only [TC.digitsOk, Bool.and_eq_true] at ha hb
  obtain ⟨ha1, ha2, ha3, ha4, ha5, ha6, ha7, ha8, ha9⟩ := ha
  obtain ⟨hb1, hb2, hb3, hb4, hb5, hb6, hb7, hb8, hb9⟩ := hb
  simp [rangeRender, vttMatchAt, TC.zero, ha1, ha2, ha3, ha4, ha5, ha6, ha7,
    ha8, ha9, hb1, hb2, hb3, hb4, hb5, hb6, hb7, hb8, hb9]

theorem rangeRender_length (a b : TC) : (rangeRender a b).length = 29 := by
  simp [rangeRender]

theorem vttMatchAt_some_length {l m r : List Char}
    (h : vttMatchAt l = some (m, r)) : l.length = r.length + 29 := by
  obtain ⟨a, b, -, -, rfl, -⟩ := vttMatchAt_some h
  simp [rangeRender]

/-! ### Unfolding equations for the VTT substitution -/

theorem vttSubstGo_fuel (r : List Char) :
    ∀ f g l, l.length ≤ f → l.length ≤ g → vttSubstGo r f l = vttSubstGo r g l := by
  intro f
  induction f with
  | zero =>
    intro g l hf _
    have hl : l = [] := List.eq_nil_of_length_eq_zero (Nat.le_zero.mp hf)
    subst hl
    cases g <;> rfl
  | succ f IH =>
    intro g l hf hg
    cases l with
    | nil => cases g <;> rfl
    | cons c cs =>
      cases g with
      | zero => simp at hg
      | succ g =>
        cases hm : vttMatchAt (c :: cs) with
        | some p =>
          obtain ⟨m, rest⟩ := p
          have hlen := vttMatchAt_some_length hm
          simp only [List.length_cons] at hf hg hlen
          simp only [vttSubstGo, hm]
          rw [IH g rest (by omega) (by omega)]
        | none =>
          simp only [List.length_cons] at hf hg
          simp only [vttSubstGo, hm]
          rw [IH g cs (by omega) (by omega)]

theorem vttSubst_nil (r : List Char) : vttSubst r [] = [] := rfl

theorem vttSubst_cons_some {c : Char} {cs m rest : List Char} (r : List Char)
    (h : vttMatchAt (c :: cs) = some (m, rest)) :
    vttSubst r (c :: cs) = r ++ vttSubst r rest := by
  have hlen := vttMatchAt_some_length h
  simp only [List.length_cons] at hlen
  show vttSubstGo r (c :: cs).length (c :: cs) = _
  simp only [List.length_cons, vttSubstGo, h]
  rw [vttSubstGo_fuel r cs.length rest.length rest (by omega) (le_refl _)]
  rfl

theorem vttSubst_cons_none {c : Char} {cs : List Char} (r : List Char)
    (h : vttMatchAt (c :: cs) = none) :
    vttSubst r (c :: cs) = c :: vttSubst r cs := by
  show vttSubstGo r (c :: cs).length (c :: cs) = _
  simp only [List.length_cons, vttSubstGo, h]
  rfl

/-! ### Unfolding equations for the VTT search -/

theorem vttSearch_nil : vttSearch [] = none := rfl

theorem vttSearch_cons_some {c : Char} {cs m rest : List Char}
    (h : vttMatchAt (c :: cs) = some (m, rest)) : vttSearch (c :: cs) = some m := by
  simp only [vttSearch, h]

theorem vttSearch_cons_none {c : Char} {cs : List Char}
    (h : vttMatchAt (c :: cs) = none) : vttSearch (c :: cs) = vttSearch cs := by
  simp only [vttSearch, h]

/-- Induction along the left-to-right non-overlapping scan of the VTT
pattern. -/
theorem vttScanInd (P : List Char → Prop) (h0 : P [])
    (hs : ∀ c cs m rest, vttMatchAt (c :: cs) = some (m, rest) → P rest → P (c :: cs))
    (hn : ∀ c cs, vttMatchAt (c :: cs) = none → P cs → P (c :: cs)) :
    ∀ l, P l := by
  suffices h : ∀ n l, l.length = n → P l from fun l => h l.length l rfl
  intro n
  induction n using Nat.strong_induction_on with
  | _ n IH =>
    intro l hL
    cases l with
    | nil => exact h0
    | cons c cs =>
      cases hm : vttMatchAt (c :: cs) with
      | none =>
        refine hn c cs hm (IH cs.length ?_ cs rfl)
        simp only [List.length_cons] at hL
        omega
      | some p =>
        have hm' : vttMatchAt (c :: cs) = some (p.1, p.2) := by rw [hm]
        refine hs c cs p.1 p.2 hm' (IH p.2.length ?_ p.2 rfl)
        have := vttMatchAt_some_length hm'
        omega

/-- A match at the head of any list, expressed without exposing the cons
shape of the list. -/
theorem vttSubst_match_head {l m rest : List Char} (r : List Char)
    (h : vttMatchAt l = some (m, rest)) : vttSubst r l = r ++ vttSubst r rest := by
  cases l with
  | nil => simp [vttMatchAt] at h
  | cons c cs => exact vttSubst_cons_some r h

theorem vttSearch_match_head {l m rest : List Char}
    (h : vttMatchAt l = some (m, rest)) : vttSearch l = some m := by
  cases l with
  | nil => simp [vttMatchAt] at h
  | cons c cs => exact vttSearch_cons_some h

/-! ### Lines and line regions without a VTT match -/

theorem vttSearch_eq_none {l : List Char}
    (h : ∀ i, i < l.length → vttMatchAt (l.drop i) = none) : vttSearch l = none := by
  induction l with
  | nil => rfl
  | cons c cs IH =>
    have h0 : vttMatchAt (c :: cs) = none := by simpa using h 0 (by simp)
    rw [vttSearch_cons_none h0]
    refine IH fun i hi => ?_
    simpa using h (i + 1) (by simpa using hi)

theorem vttSubst_id (r : List Char) {l : List Char}
    (h : ∀ i, i < l.length → vttMatchAt (l.drop i) = none) : vttSubst r l = l := by
  induction l with
  | nil => rfl
  | cons c cs IH =>
    have h0 : vttMatchAt (c :: cs) = none := by simpa using h 0 (by simp)
    rw [vttSubst_cons_none r h0]
    rw [IH fun i hi => by simpa using h (i + 1) (by simpa using hi)]

theorem vttSearch_append {p t : List Char}
    (hp : ∀ i, i < p.length → vttMatchAt ((p ++ t).drop i) = none) :
    vttSearch (p ++ t) = vttSearch t := by
  induction p with
  | nil => simp
  | cons c p IH =>
    rw [List.cons_append]
    have h0 : vttMatchAt (c :: (p ++ t)) = none := by simpa using hp 0 (by simp)
    rw [vttSearch_cons_none h0]
    refine IH fun i hi => ?_
    simpa using hp (i + 1) (by simpa using hi)

theorem vttSubst_append (r : List Char) {p t : List Char}
    (hp : ∀ i, i < p.length → vttMatchAt ((p ++ t).drop i) = none) :
    vttSubst r (p ++ t) = p ++ vttSubst r t := by
  induction p with
  | nil => simp
  | cons c p IH =>
    rw [List.cons_append]
    have h0 : vttMatchAt (c :: (p ++ t)) = none := by simpa using hp 0 (by simp)
    rw [vttSubst_cons_none r h0]
    rw [IH fun i hi => by simpa using hp (i + 1) (by simpa using hi)]
    simp

/-- Substituting over a well-formed segment tail replaces exactly the
range occurrences, each by the fixed replacement `r`. -/
theorem vttSubst_segs (r : List Char) :
    ∀ (segs : List (List Char × TC × TC)) (s : List Char), vttSegsOk segs s = true →
      vttSubst r (vttSegsRender segs s) = vttSegsRepl r segs s := by
  intro segs
  induction segs with
  | nil =>
    intro s hok
    simp only [vttSegsOk, decide_eq_true_eq] at hok
    simpa only [vttSegsRender, vttSegsRepl] using vttSubst_id r hok
  | cons seg rest IH =>
    obtain ⟨q, a, b⟩ := seg
    intro s hok
    simp only [vttSegsOk, Bool.and_eq_true, decide_eq_true_eq] at hok
    obtain ⟨ha, hb, hq, hrest⟩ := hok
    simp only [vttSegsRender, vttSegsRepl]
    have hq' : ∀ i, i < q.length →
        vttMatchAt ((q ++ (rangeRender a b ++ vttSegsRender rest s)).drop i) = none := by
      simpa only [List.append_assoc] using hq
    rw [List.append_assoc, vttSubst_append r hq',
      vttSubst_match_head r (vttMatchAt_render a b _ ha hb), IH s hrest,
      ← List.append_assoc]

/-- Any replacement returned by `vttSearch` is an hour-zeroed well-formed
range. -/
theorem vttSearch_some_shape :
    ∀ {l nt : List Char}, vttSearch l = some nt →
      ∃ a b : TC, a.digitsOk = true ∧ b.digitsOk = true ∧
        nt = rangeRender a.zero b.zero := by
  intro l
  induction l with
  | nil => intro nt h; simp [vttSearch] at h
  | cons c cs IH =>
    intro nt h
    cases hm : vttMatchAt (c :: cs) with
    | some p =>
      obtain ⟨m, rest⟩ := p
      rw [vttSearch_cons_some hm] at h
      obtain ⟨a, b, ha, hb, -, hzm⟩ := vttMatchAt_some hm
      injection h with h
      exact ⟨a, b, ha, hb, by rw [← h, hzm]⟩
    | none =>
      rw [vttSearch_cons_none hm] at h
      exact IH h

/-! ### Digit similarity: replacing digits by digits preserves matching -/

theorem digitRel_refl (a : Char) : digitRel a a := Or.inl rfl

theorem digitRel_lit {a b : Char} (h : digitRel a b) (hb : b.isDigit = false) :
    a = b := by
  rcases h with rfl | ⟨-, hd⟩
  · rfl
  · rw [hd] at hb; exact absurd hb (by simp)

theorem digitRel_digit {a b : Char} (h : digitRel a b) (hb : b.isDigit = true) :
    a.isDigit = true := by
  rcases h with rfl | ⟨ha, -⟩
  · exact hb
  · exact ha

theorem forall₂_cons_inv {R : Char → Char → Prop} {x : List Char} {b : Char}
    {v : List Char} (h : List.Forall₂ R x (b :: v)) :
    ∃ a u, x = a :: u ∧ R a b ∧ List.Forall₂ R u v := by
  cases h with
  | cons hr ht => exact ⟨_, _, rfl, hr, ht⟩

theorem forall₂_append_of {R : Char → Char → Prop} {l₁ l₂ u₁ u₂ : List Char}
    (h1 : List.Forall₂ R l₁ u₁) (h2 : List.Forall₂ R l₂ u₂) :
    List.Forall₂ R (l₁ ++ l₂) (u₁ ++ u₂) := by
  induction h1 with
  | nil => simpa
  | cons hr ht IH => exact List.Forall₂.cons hr IH

theorem zero_digitsOk {a : TC} (ha : a.digitsOk = true) : a.zero.digitsOk = true := by
  simp only [TC.digitsOk, TC.zero, Bool.and_eq_true] at ha ⊢
  obtain ⟨-, -, h3, h4, h5, h6, h7, h8, h9⟩ := ha
  exact ⟨by decide, by decide, h3, h4, h5, h6, h7, h8, h9⟩

theorem zero_zero (a : TC) : a.zero.zero = a.zero := rfl

/-- Any two well-formed ranges are pointwise digit-similar. -/
theorem rangeRender_sim {a b c d : TC} (ha : a.digitsOk = true)
    (hb : b.digitsOk = true) (hc : c.digitsOk = true) (hd : d.digitsOk = true) :
    List.Forall₂ digitRel (rangeRender a b) (rangeRender c d) := by
  simp only [TC.digitsOk, Bool.and_eq_true] at ha hb hc hd
  obtain ⟨ha1, ha2, ha3, ha4, ha5, ha6, ha7, ha8, ha9⟩ := ha
  obtain ⟨hb1, hb2, hb3, hb4, hb5, hb6, hb7, hb8, hb9⟩ := hb
  obtain ⟨hc1, hc2, hc3, hc4, hc5, hc6, hc7, hc8, hc9⟩ := hc
  obtain ⟨hd1, hd2, hd3, hd4, hd5, hd6, hd7, hd8, hd9⟩ := hd
  simp only [rangeRender, List.forall₂_cons]
  exact ⟨Or.inr ⟨ha1, hc1⟩, Or.inr ⟨ha2, hc2⟩, Or.inl rfl,
    Or.inr ⟨ha3, hc3⟩, Or.inr ⟨ha4, hc4⟩, Or.inl rfl,
    Or.inr ⟨ha5, hc5⟩, Or.inr ⟨ha6, hc6⟩, Or.inl rfl,
    Or.inr ⟨ha7, hc7⟩, Or.inr ⟨ha8, hc8⟩, Or.inr ⟨ha9, hc9⟩,
    Or.inl rfl, Or.inl rfl, Or.inl rfl, Or.inl rfl, Or.inl rfl,
    Or.inr ⟨hb1, hd1⟩, Or.inr ⟨hb2, hd2⟩, Or.inl rfl,
    Or.inr ⟨hb3, hd3⟩, Or.inr ⟨hb4, hd4⟩, Or.inl rfl,
    Or.inr ⟨hb5, hd5⟩, Or.inr ⟨hb6, hd6⟩, Or.inl rfl,
    Or.inr ⟨hb7, hd7⟩, Or.inr ⟨hb8, hd8⟩, Or.inr ⟨hb9, hd9⟩,
    List.Forall₂.nil⟩

/-- The hour-zeroing substitution changes digits to digits only, so the
input and output lines are pointwise digit-similar. -/
theorem vttSubst_sim (a b : TC) (ha : a.digitsOk = true) (hb : b.digitsOk = true) :
    ∀ l, List.Forall₂ digitRel l (vttSubst (rangeRender a.zero b.zero) l) := by
  refine vttScanInd _ ?_ ?_ ?_
  · rw [vttSubst_nil]; exact List.Forall₂.nil
  · intro c cs m rest hm IH
    rw [vttSubst_cons_some _ hm]
    obtain ⟨a', b', ha', hb', hl, -⟩ := vttMatchAt_some hm
    rw [hl]
    exact forall₂_append_of
      (rangeRender_sim ha' hb' (zero_digitsOk ha) (zero_digitsOk hb)) IH
  · intro c cs hm IH
    rw [vttSubst_cons_none _ hm]
    exact List.Forall₂.cons (digitRel_refl c) IH

/-- Digit-similar lines match the VTT pattern at the same positions. -/
theorem vttMatchAt_none_sim {u v : List Char}
    (hsim : List.Forall₂ digitRel u v) (hu : vttMatchAt u = none) :
    vttMatchAt v = none := by
  cases hv : vttMatchAt v with
  | none => rfl
  | some p =>
    exfalso
    obtain ⟨m, r⟩ := p
    obtain ⟨a, b, ha, hb, hveq, -⟩ := vttMatchAt_some hv
    rw [hveq, show rangeRender a b ++ r = a.h1 :: a.h2 :: ':' :: a.m1 :: a.m2 ::
      ':' :: a.s1 :: a.s2 :: '.' :: a.ms1 :: a.ms2 :: a.ms3 :: ' ' :: '-' ::
      '-' :: '>' :: ' ' :: b.h1 :: b.h2 :: ':' :: b.m1 :: b.m2 :: ':' ::
      b.s1 :: b.s2 :: '.' :: b.ms1 :: b.ms2 :: b.ms3 :: r
      from by simp [rangeRender]] at hsim
    obtain ⟨c1, u1, rfl, r1, hsim⟩ := forall₂_cons_inv hsim
    obtain ⟨c2, u2, rfl, r2, hsim⟩ := forall₂_cons_inv hsim
    obtain ⟨c3, u3, rfl, r3, hsim⟩ := forall₂_cons_inv hsim
    obtain ⟨c4, u4, rfl, r4, hsim⟩ := forall₂_cons_inv hsim
    obtain ⟨c5, u5, rfl, r5, hsim⟩ := forall₂_cons_inv hsim
    obtain ⟨c6, u6, rfl, r6, hsim⟩ := forall₂_cons_inv hsim
    obtain ⟨c7, u7, rfl, r7, hsim⟩ := forall₂_cons_inv hsim
    obtain ⟨c8, u8, rfl, r8, hsim⟩ := forall₂_cons_inv hsim
    obtain ⟨c9, u9, rfl, r9, hsim⟩ := forall₂_cons_inv hsim
    obtain ⟨c10, u10, rfl, r10, hsim⟩ := forall₂_cons_inv hsim
    obtain ⟨c11, u11, rfl, r11, hsim⟩ := forall₂_cons_inv hsim
    obtain ⟨c12, u12, rfl, r12, hsim⟩ := forall₂_cons_inv hsim
    obtain ⟨c13, u13, rfl, r13, hsim⟩ := forall₂_cons_inv hsim
    obtain ⟨c14, u14, rfl, r14, hsim⟩ := forall₂_cons_inv hsim
    obtain ⟨c15, u15, rfl, r15, hsim⟩ := forall₂_cons_inv hsim
    obtain ⟨c16, u16, rfl, r16, hsim⟩ := forall₂_cons_inv hsim
    obtain ⟨c17, u17, rfl, r17, hsim⟩ := forall₂_cons_inv hsim
    obtain ⟨c18, u18, rfl, r18, hsim⟩ := forall₂_cons_inv hsim
    obtain ⟨c19, u19, rfl, r19, hsim⟩ := forall₂_cons_inv hsim
    obtain ⟨c20, u20, rfl, r20, hsim⟩ := forall₂_cons_inv hsim
    obtain ⟨c21, u21, rfl, r21, hsim⟩ := forall₂_cons_inv hsim
    obtain ⟨c22, u22, rfl, r22, hsim⟩ := forall₂_cons_inv hsim
    obtain ⟨c23, u23, rfl, r23, hsim⟩ := forall₂_cons_inv hsim
    obtain ⟨c24, u24, rfl, r24, hsim⟩ := forall₂_cons_inv hsim
    obtain ⟨c25, u25, rfl, r25, hsim⟩ := forall₂_cons_inv hsim
    obtain ⟨c26, u26, rfl, r26, hsim⟩ := forall₂_cons_inv hsim
    obtain ⟨c27, u27, rfl, r27, hsim⟩ := forall₂_cons_inv hsim
    obtain ⟨c28, u28, rfl, r28, hsim⟩ := forall₂_cons_inv hsim
    obtain ⟨c29, u29, rfl, r29, hsim⟩ := forall₂_cons_inv hsim
    simp only [TC.digitsOk, Bool.and_eq_true] at ha hb
    obtain ⟨ha1, ha2, ha3, ha4, ha5, ha6, ha7, ha8, ha9⟩ := ha
    obtain ⟨hb1, hb2, hb3, hb4, hb5, hb6, hb7, hb8, hb9⟩ := hb
    have e3 := digitRel_lit r3 (by decide)
    have e6 := digitRel_lit r6 (by decide)
    have e9 := digitRel_lit r9 (by decide)
    have e13 := digitRel_lit r13 (by decide)
    have e14 := digitRel_lit r14 (by decide)
    have e15 := digitRel_lit r15 (by decide)
    have e16 := digitRel_lit r16 (by decide)
    have e17 := digitRel_lit r17 (by decide)
    have e20 := digitRel_lit r20 (by decide)
    have e23 := digitRel_lit r23 (by decide)
    have e26 := digitRel_lit r26 (by decide)
    subst e3; subst e6; subst e9; subst e13; subst e14; subst e15
    subst e16; subst e17; subst e20; subst e23; subst e26
    have k1 := digitRel_digit r1 ha1
    have k2 := digitRel_digit r2 ha2
    have k4 := digitRel_digit r4 ha3
    have k5 := digitRel_digit r5 ha4
    have k7 := digitRel_digit r7 ha5
    have k8 := digitRel_digit r8 ha6
    have k10 := digitRel_digit r10 ha7
    have k11 := digitRel_digit r11 ha8
    have k12 := digitRel_digit r12 ha9
    have k18 := digitRel_digit r18 hb1
    have k19 := digitRel_digit r19 hb2
    have k21 := digitRel_digit r21 hb3
    have k22 := digitRel_digit r22 hb4
    have k24 := digitRel_digit r24 hb5
    have k25 := digitRel_digit r25 hb6
    have k27 := digitRel_digit r27 hb7
    have k28 := digitRel_digit r28 hb8
    have k29 := digitRel_digit r29 hb9
    simp [vttMatchAt, k1, k2, k4, k5, k7, k8, k10, k11, k12, k18, k19, k21,
      k22, k24, k25, k27, k28, k29] at hu

/-! ### Idempotence of the hour-zeroing rewrite -/

theorem vttSearch_subst (a b : TC) (ha : a.digitsOk = true) (hb : b.digitsOk = true) :
    ∀ l, vttSearch l = some (rangeRender a.zero b.zero) →
      vttSearch (vttSubst (rangeRender a.zero b.zero) l) =
        some (rangeRender a.zero b.zero) := by
  refine vttScanInd _ ?_ ?_ ?_
  · intro h; rw [vttSearch_nil] at h; exact absurd h (by simp)
  · intro c cs m rest hm IH h
    rw [vttSearch_cons_some hm] at h
    injection h with h
    subst h
    rw [vttSubst_cons_some _ hm]
    have hmz := vttMatchAt_render a.zero b.zero
      (vttSubst (rangeRender a.zero b.zero) rest)
      (zero_digitsOk ha) (zero_digitsOk hb)
    rw [zero_zero a, zero_zero b] at hmz
    exact vttSearch_match_head hmz
  · intro c cs hm IH h
    rw [vttSearch_cons_none hm] at h
    rw [vttSubst_cons_none _ hm]
    have hnone : vttMatchAt (c :: vttSubst (rangeRender a.zero b.zero) cs) = none :=
      vttMatchAt_none_sim
        (List.Forall₂.cons (digitRel_refl c) (vttSubst_sim a b ha hb cs)) hm
    rw [vttSearch_cons_none hnone]
    exact IH h

theorem vttSubst_idem (a b : TC) (ha : a.digitsOk = true) (hb : b.digitsOk = true) :
    ∀ l, vttSubst (rangeRender a.zero b.zero) (vttSubst (rangeRender a.zero b.zero) l) =
      vttSubst (rangeRender a.zero b.zero) l := by
  refine vttScanInd _ ?_ ?_ ?_
  · rw [vttSubst_nil, vttSubst_nil]
  · intro c cs m rest hm IH
    rw [vttSubst_cons_some _ hm]
    have hmz := vttMatchAt_render a.zero b.zero
      (vttSubst (rangeRender a.zero b.zero) rest)
      (zero_digitsOk ha) (zero_digitsOk hb)
    rw [zero_zero a, zero_zero b] at hmz
    rw [vttSubst_match_head _ hmz, IH]
  · intro c cs hm IH
    rw [vttSubst_cons_none _ hm]
    have hnone : vttMatchAt (c :: vttSubst (rangeRender a.zero b.zero) cs) = none :=
      vttMatchAt_none_sim
        (List.Forall₂.cons (digitRel_refl c) (vttSubst_sim a b ha hb cs)) hm
    rw [vttSubst_cons_none _ hnone, IH]

/-! ### Claims about `adjust_timecode_vtt` -/

/-- C1 (counterexample): on a line containing two occurrences of the VTT
range pattern, `adjust_timecode_vtt` does not leave the surrounding text
byte-identical — the second occurrence is overwritten by the first
occurrence's hour-zeroed rewrite, so the output differs from the one the
claim predicts. -/
theorem c1_counterexample :
    adjust_timecode_vtt
        "01:02:03.456 --> 01:02:05.789 x 02:03:04.111 --> 02:03:05.222".toList ≠
      "00:02:03.456 --> 00:02:05.789 x 02:03:04.111 --> 02:03:05.222".toList ∧
    adjust_timecode_vtt
        "01:02:03.456 --> 01:02:05.789 x 02:03:04.111 --> 02:03:05.222".toList =
      "00:02:03.456 --> 00:02:05.789 x 00:02:03.456 --> 00:02:05.789".toList := by
  constructor
  · decide
  · decide

/-- C1 (amended): a line with no occurrence of the VTT range pattern is
returned unchanged; a line whose scan finds exactly one occurrence (no
match starts before it and none after it) is returned with exactly that
match's two hour fields rewritten to `00` and everything else
byte-identical.  (Lines where the scan finds further occurrences have
every occurrence replaced by the first's rewrite; see the multi-occurrence
claim.) -/
theorem c1_amended :
    (∀ l : List Char, (∀ i, i < l.length → vttMatchAt (l.drop i) = none) →
      adjust_timecode_vtt l = l) ∧
    (∀ (p s : List Char) (a b : TC), a.digitsOk = true → b.digitsOk = true →
      (∀ i, i < p.length → vttMatchAt ((p ++ rangeRender a b ++ s).drop i) = none) →
      (∀ j, j < s.length → vttMatchAt (s.drop j) = none) →
      adjust_timecode_vtt (p ++ rangeRender a b ++ s) =
        p ++ rangeRender a.zero b.zero ++ s) := by
  constructor
  · intro l h
    simp [adjust_timecode_vtt, vttSearch_eq_none h]
  · intro p s a b ha hb hp hs
    have hp' : ∀ i, i < p.length →
        vttMatchAt ((p ++ (rangeRender a b ++ s)).drop i) = none := by
      simpa only [List.append_assoc] using hp
    have hm : vttMatchAt (rangeRender a b ++ s) =
        some (rangeRender a.zero b.zero, s) := vttMatchAt_render a b s ha hb
    have hsearch : vttSearch (p ++ rangeRender a b ++ s) =
        some (rangeRender a.zero b.zero) := by
      rw [List.append_assoc, vttSearch_append hp', vttSearch_match_head hm]
    simp only [adjust_timecode_vtt, hsearch]
    rw [List.append_assoc, vttSubst_append _ hp', vttSubst_match_head _ hm,
      vttSubst_id _ hs, ← List.append_assoc]

/-- C1 (witness): the amended statement applied to a concrete line with
exactly one occurrence. -/
theorem c1_witness :
    adjust_timecode_vtt ("x ".toList ++
        rangeRender ⟨'0', '1', '0', '2', '0', '3', '4', '5', '6'⟩
          ⟨'0', '7', '0', '8', '0', '9', '1', '2', '3'⟩ ++ " y".toList) =
      "x ".toList ++
        rangeRender (TC.zero ⟨'0', '1', '0', '2', '0', '3', '4', '5', '6'⟩)
          (TC.zero ⟨'0', '7', '0', '8', '0', '9', '1', '2', '3'⟩) ++ " y".toList :=
  c1_amended.2 "x ".toList " y".toList _ _ (by decide) (by decide)
    (by decide) (by decide)

/-- C8: applying the VTT hour-zeroing rewrite twice yields the same
result as applying it once, for every input line. -/
theorem c8_idempotent :
    ∀ l, adjust_timecode_vtt (adjust_timecode_vtt l) = adjust_timecode_vtt l := by
  intro l
  cases hs : vttSearch l with
  | none => simp [adjust_timecode_vtt, hs]
  | some nt =>
    obtain ⟨a, b, ha, hb, rfl⟩ := vttSearch_some_shape hs
    have h2 := vttSearch_subst a b ha hb l hs
    simp only [adjust_timecode_vtt, hs, h2]
    exact vttSubst_idem a b ha hb l

/-- C9: on a line where the scan finds two or more occurrences of the
VTT range pattern, every occurrence is replaced by the hour-zeroed
rewrite of the first occurrence, overwriting the later occurrences'
minute, second and millisecond fields with the first occurrence's
values. -/
theorem c9_multi_occurrence :
    ∀ (p : List Char) (a b : TC) (segs : List (List Char × TC × TC)) (s : List Char),
      a.digitsOk = true → b.digitsOk = true → segs ≠ [] →
      (∀ i, i < p.length →
        vttMatchAt ((p ++ rangeRender a b ++ vttSegsRender segs s).drop i) = none) →
      vttSegsOk segs s = true →
      adjust_timecode_vtt (p ++ rangeRender a b ++ vttSegsRender segs s) =
        p ++ rangeRender a.zero b.zero ++
          vttSegsRepl (rangeRender a.zero b.zero) segs s := by
  intro p a b segs s ha hb _ hp hok
  have hp' : ∀ i, i < p.length →
      vttMatchAt ((p ++ (rangeRender a b ++ vttSegsRender segs s)).drop i) = none := by
    simpa only [List.append_assoc] using hp
  have hm : vttMatchAt (rangeRender a b ++ vttSegsRender segs s) =
      some (rangeRender a.zero b.zero, vttSegsRender segs s) :=
    vttMatchAt_render a b _ ha hb
  have hsearch : vttSearch (p ++ rangeRender a b ++ vttSegsRender segs s) =
      some (rangeRender a.zero b.zero) := by
    rw [List.append_assoc, vttSearch_append hp', vttSearch_match_head hm]
  simp only [adjust_timecode_vtt, hsearch]
  rw [List.append_assoc, vttSubst_append _ hp', vttSubst_match_head _ hm,
    vttSubst_segs _ segs s hok, ← List.append_assoc]

/-- C9 (witness): a concrete line with two occurrences; the second
occurrence's fields are overwritten by the first's rewrite. -/
theorem c9_witness :
    adjust_timecode_vtt ("".toList ++
        rangeRender ⟨'0', '1', '0', '2', '0', '3', '4', '5', '6'⟩
          ⟨'0', '7', '0', '8', '0', '9', '1', '2', '3'⟩ ++
        vttSegsRender [(" z ".toList,
          ⟨'1', '1', '2', '2', '3', '3', '4', '4', '4'⟩,
          ⟨'5', '5', '6', '6', '7', '7', '8', '8', '8'⟩)] "".toList) =
      "".toList ++
        rangeRender (TC.zero ⟨'0', '1', '0', '2', '0', '3', '4', '5', '6'⟩)
          (TC.zero ⟨'0', '7', '0', '8', '0', '9', '1', '2', '3'⟩) ++
        vttSegsRepl (rangeRender
            (TC.zero ⟨'0', '1', '0', '2', '0', '3', '4', '5', '6'⟩)
            (TC.zero ⟨'0', '7', '0', '8', '0', '9', '1', '2', '3'⟩))
          [(" z ".toList,
            ⟨'1', '1', '2', '2', '3', '3', '4', '4', '4'⟩,
            ⟨'5', '5', '6', '6', '7', '7', '8', '8', '8'⟩)] "".toList :=
  c9_multi_occurrence "".toList _ _ _ "".toList (by decide) (by decide)
    (by decide) (by decide) (by decide)

/-! ### Basic facts about the SRT pattern matcher -/

theorem srtMatchAt_nil : srtMatchAt [] = none := rfl

/-- Characterization of a successful SRT match: the input starts with a
well-formed comma timecode, and the replacement is the same timecode
with a period. -/
theorem srtMatchAt_some {l m r : List Char} (h : srtMatchAt l = some (m, r)) :
    ∃ t : TC, t.digitsOk = true ∧ l = TC.renderSep ',' t ++ r ∧
      m = TC.renderSep '.' t := by
  unfold srtMatchAt at h
  split at h
  next a1 a2 a3 a4 a5 a6 a7 a8 a9 a10 a11 a12 rest =>
    split at h
    next hcond =>
      simp only [Bool.and_eq_true, beq_iff_eq] at hcond
      obtain ⟨d1, d2, e3, d4, d5, e6, d7, d8, e9, d10, d11, d12⟩ := hcond
      subst e3; subst e6; subst e9
      rw [Option.some.injEq, Prod.mk.injEq] at h
      obtain ⟨hm, hr⟩ := h
      subst hr
      refine ⟨⟨a1, a2, a4, a5, a7, a8, a10, a11, a12⟩, ?_, ?_, ?_⟩
      · simp [TC.digitsOk, d1, d2, d4, d5, d7, d8, d10, d11, d12]
      · simp [TC.renderSep]
      · rw [← hm]; simp [TC.renderSep]
    next => exact absurd h (by simp)
  next => exact absurd h (by simp)

theorem srtMatchAt_render (t : TC) (w : List Char) (ht : t.digitsOk = true) :
    srtMatchAt (TC.renderSep ',' t ++ w) = some (TC.renderSep '.' t, w) := by
  simp only [TC.digitsOk, Bool.and_eq_true] at ht
  obtain ⟨h1, h2, h3, h4, h5, h6, h7, h8, h9⟩ := ht
  simp [TC.renderSep, srtMatchAt, h1, h2, h3, h4, h5, h6, h7, h8, h9]

/-- A period timecode never matches the SRT pattern at its own start. -/
theorem srtMatchAt_dotted (t : TC) (w : List Char) :
    srtMatchAt (TC.renderSep '.' t ++ w) = none := by
  have hfalse : (('.' : Char) == ',') = false := by decide
  simp [TC.renderSep, srtMatchAt, hfalse]

theorem renderSep_length (sep : Char) (t : TC) : (TC.renderSep sep t).length = 12 := by
  simp [TC.renderSep]

theorem srtMatchAt_some_length {l m r : List Char}
    (h : srtMatchAt l = some (m, r)) : l.length = r.length + 12 := by
  obtain ⟨t, -, rfl, -⟩ := srtMatchAt_some h
  simp [TC.renderSep]

/-! ### Unfolding equations for the SRT substitution and scan points -/

theorem srtSubGo_fuel :
    ∀ f g l, l.length ≤ f → l.length ≤ g → srtSubGo f l = srtSubGo g l := by
  intro f
  induction f with
  | zero =>
    intro g l hf _
    have hl : l = [] := List.eq_nil_of_length_eq_zero (Nat.le_zero.mp hf)
    subst hl
    cases g <;> rfl
  | succ f IH =>
    intro g l hf hg
    cases l with
    | nil => cases g <;> rfl
    | cons c cs =>
      cases g with
      | zero => simp at hg
      | succ g =>
        cases hm : srtMatchAt (c :: cs) with
        | some p =>
          obtain ⟨m, rest⟩ := p
          have hlen := srtMatchAt_some_length hm
          simp only [List.length_cons] at hf hg hlen
          simp only [srtSubGo, hm]
          rw [IH g rest (by omega) (by omega)]
        | none =>
          simp only [List.length_cons] at hf hg
          simp only [srtSubGo, hm]
          rw [IH g cs (by omega) (by omega)]

theorem srtSub_nil : srtSub [] = [] := rfl

theorem srtSub_cons_some {c : Char} {cs m rest : List Char}
    (h : srtMatchAt (c :: cs) = some (m, rest)) :
    srtSub (c :: cs) = m ++ srtSub rest := by
  have hlen := srtMatchAt_some_length h
  simp only [List.length_cons] at hlen
  show srtSubGo (c :: cs).length (c :: cs) = _
  simp only [List.length_cons, srtSubGo, h]
  rw [srtSubGo_fuel cs.length rest.length rest (by omega) (le_refl _)]
  rfl

theorem srtSub_cons_none {c : Char} {cs : List Char}
    (h : srtMatchAt (c :: cs) = none) : srtSub (c :: cs) = c :: srtSub cs := by
  show srtSubGo (c :: cs).length (c :: cs) = _
  simp only [List.length_cons, srtSubGo, h]
  rfl

theorem srtSub_match_head {l m rest : List Char}
    (h : srtMatchAt l = some (m, rest)) : srtSub l = m ++ srtSub rest := by
  cases l with
  | nil => simp [srtMatchAt] at h
  | cons c cs => exact srtSub_cons_some h

theorem srtScanPtsGo_fuel :
    ∀ f g l, l.length ≤ f → l.length ≤ g → srtScanPtsGo f l = srtScanPtsGo g l := by
  intro f
  induction f with
  | zero =>
    intro g l hf _
    have hl : l = [] := List.eq_nil_of_length_eq_zero (Nat.le_zero.mp hf)
    subst hl
    cases g <;> rfl
  | succ f IH =>
    intro g l hf hg
    cases l with
    | nil => cases g <;> rfl
    | cons c cs =>
      cases g with
      | zero => simp at hg
      | succ g =>
        cases hm : srtMatchAt (c :: cs) with
        | some p =>
          obtain ⟨m, rest⟩ := p
          have hlen := srtMatchAt_some_length hm
          simp only [List.length_cons] at hf hg hlen
          simp only [srtScanPtsGo, hm]
          rw [IH g rest (by omega) (by omega)]
        | none =>
          simp only [List.length_cons] at hf hg
          simp only [srtScanPtsGo, hm]
          rw [IH g cs (by omega) (by omega)]

theorem srtScanPts_nil : srtScanPts [] = [] := rfl

theorem srtScanPts_cons_some {c : Char} {cs m rest : List Char}
    (h : srtMatchAt (c :: cs) = some (m, rest)) :
    srtScanPts (c :: cs) = 0 :: (srtScanPts rest).map (· + 12) := by
  have hlen := srtMatchAt_some_length h
  simp only [List.length_cons] at hlen
  show srtScanPtsGo (c :: cs).length (c :: cs) = _
  simp only [List.length_cons, srtScanPtsGo, h]
  rw [srtScanPtsGo_fuel cs.length rest.length rest (by omega) (le_refl _)]
  rfl

theorem srtScanPts_cons_none {c : Char} {cs : List Char}
    (h : srtMatchAt (c :: cs) = none) :
    srtScanPts (c :: cs) = (srtScanPts cs).map (· + 1) := by
  show srtScanPtsGo (c :: cs).length (c :: cs) = _
  simp only [List.length_cons, srtScanPtsGo, h]
  rfl

/-- Induction along the left-to-right non-overlapping scan of the SRT
pattern. -/
theorem srtScanInd (P : List Char → Prop) (h0 : P [])
    (hs : ∀ c cs m rest, srtMatchAt (c :: cs) = some (m, rest) → P rest → P (c :: cs))
    (hn : ∀ c cs, srtMatchAt (c :: cs) = none → P cs → P (c :: cs)) :
    ∀ l, P l := by
  suffices h : ∀ n l, l.length = n → P l from fun l => h l.length l rfl
  intro n
  induction n using Nat.strong_induction_on with
  | _ n IH =>
    intro l hL
    cases l with
    | nil => exact h0
    | cons c cs =>
      cases hm : srtMatchAt (c :: cs) with
      | none =>
        refine hn c cs hm (IH cs.length ?_ cs rfl)
        simp only [List.length_cons] at hL
        omega
      | some p =>
        have hm' : srtMatchAt (c :: cs) = some (p.1, p.2) := by rw [hm]
        refine hs c cs p.1 p.2 hm' (IH p.2.length ?_ p.2 rfl)
        have := srtMatchAt_some_length hm'
        omega

/-! ### Lines and line regions without an SRT match -/

theorem srtSub_id {l : List Char}
    (h : ∀ i, i < l.length → srtMatchAt (l.drop i) = none) : srtSub l = l := by
  induction l with
  | nil => rfl
  | cons c cs IH =>
    have h0 : srtMatchAt (c :: cs) = none := by simpa using h 0 (by simp)
    rw [srtSub_cons_none h0]
    rw [IH fun i hi => by simpa using h (i + 1) (by simpa using hi)]

theorem srtSub_append {p t : List Char}
    (hp : ∀ i, i < p.length → srtMatchAt ((p ++ t).drop i) = none) :
    srtSub (p ++ t) = p ++ srtSub t := by
  induction p with
  | nil => simp
  | cons c p IH =>
    rw [List.cons_append]
    have h0 : srtMatchAt (c :: (p ++ t)) = none := by simpa using hp 0 (by simp)
    rw [srtSub_cons_none h0]
    rw [IH fun i hi => by simpa using hp (i + 1) (by simpa using hi)]
    simp

/-- The substitution over a well-formed segment tail rewrites exactly the
timecode occurrences, comma to period, preserving every digit and every
gap. -/
theorem srtSub_segs :
    ∀ segs : List (TC × List Char), srtSegsOk segs = true →
      srtSub (srtSegsRender segs) = srtSegsDotted segs := by
  intro segs
  induction segs with
  | nil => intro _; rfl
  | cons seg rest IH =>
    obtain ⟨t, q⟩ := seg
    intro hok
    simp only [srtSegsOk, Bool.and_eq_true, decide_eq_true_eq] at hok
    obtain ⟨ht, hq, hrest⟩ := hok
    simp only [srtSegsRender, srtSegsDotted, List.append_assoc]
    rw [srtSub_match_head (srtMatchAt_render t _ ht), srtSub_append hq, IH hrest]

/-! ### Claims C2 and C3 -/

/-- C2: the SRT punctuation normalization rewrites every occurrence of
`HH:MM:SS,mmm` found by the scan, replacing the comma with a period while
preserving all digits (including the hours) and all surrounding text; in
particular a line carrying a full range (two occurrences) has both
rewritten. -/
theorem c2_every_occurrence :
    ∀ (p : List Char) (segs : List (TC × List Char)),
      (∀ i, i < p.length → srtMatchAt ((p ++ srtSegsRender segs).drop i) = none) →
      srtSegsOk segs = true →
      srtSub (p ++ srtSegsRender segs) = p ++ srtSegsDotted segs := by
  intro p segs hp hok
  rw [srtSub_append hp, srtSub_segs segs hok]

/-- C2 (witness): a full-range line `NN:NN:NN,NNN --> NN:NN:NN,NNN`
with an index prefix; both occurrences are rewritten. -/
theorem c2_witness :
    srtSub ("x ".toList ++ srtSegsRender
        [(⟨'0', '0', '0', '0', '0', '1', '0', '0', '0'⟩, " --> ".toList),
         (⟨'1', '2', '0', '0', '0', '2', '5', '0', '0'⟩, "\n".toList)]) =
      "x ".toList ++ srtSegsDotted
        [(⟨'0', '0', '0', '0', '0', '1', '0', '0', '0'⟩, " --> ".toList),
         (⟨'1', '2', '0', '0', '0', '2', '5', '0', '0'⟩, "\n".toList)] :=
  c2_every_occurrence "x ".toList _ (by decide) (by decide)

/-- C3: the SRT-to-VTT conversion output is exactly the `WEBVTT` header
plus a blank line followed by each input line, in order, with the
punctuation normalization applied; the header is present even for empty
input; and lines without an SRT match (in particular VTT timecode lines
with nonzero hours) pass through unchanged — no hour-zeroing occurs. -/
theorem c3_header_and_lines :
    (∀ ls : List (List Char), (convert_srt_to_vtt ls).take 8 = WEBVTT_HEADER) ∧
    convert_srt_to_vtt [] = WEBVTT_HEADER ∧
    (∀ ls : List (List Char),
      (convert_srt_to_vtt ls).drop 8 = (ls.map srtSub).flatten) ∧
    (∀ ls : List (List Char),
      (∀ l ∈ ls, ∀ i, i < l.length → srtMatchAt (l.drop i) = none) →
      convert_srt_to_vtt ls = WEBVTT_HEADER ++ ls.flatten) := by
  refine ⟨?_, ?_, ?_, ?_⟩
  · intro ls
    show (WEBVTT_HEADER ++ _).take 8 = WEBVTT_HEADER
    rw [show (8 : Nat) = WEBVTT_HEADER.length from rfl, List.take_left]
  · simp [convert_srt_to_vtt]
  · intro ls
    show (WEBVTT_HEADER ++ _).drop 8 = _
    rw [show (8 : Nat) = WEBVTT_HEADER.length from rfl, List.drop_left]
  · intro ls h
    unfold convert_srt_to_vtt
    have hmap : ls.map srtSub = ls := by
      induction ls with
      | nil => rfl
      | cons l ls IH =>
        simp only [List.map_cons]
        rw [srtSub_id (h l (by simp)), IH fun l' hl' => h l' (by simp [hl'])]
    rw [hmap]

/-- C3 (witness): a VTT-style cue line with nonzero hours and no SRT
comma timecode passes through after the header, hours untouched. -/
theorem c3_witness :
    convert_srt_to_vtt ["01:02:03.456 --> 01:02:04.000\n".toList] =
      WEBVTT_HEADER ++
        (["01:02:03.456 --> 01:02:04.000\n".toList] : List (List Char)).flatten :=
  c3_header_and_lines.2.2.2 _ (by decide)

/-! ### Comma similarity and the scan points: claim C10 -/

theorem commaRel_refl (a : Char) : commaRel a a := Or.inl rfl

theorem commaRel_eq {a b : Char} (h : commaRel a b) (hb : b ≠ '.') : a = b := by
  rcases h with rfl | ⟨-, rfl⟩
  · rfl
  · exact absurd rfl hb

theorem digit_ne_dot {a : Char} (h : a.isDigit = true) : a ≠ '.' := by
  intro heq
  subst heq
  exact absurd h (by decide)

theorem renderSep_sim (t : TC) :
    List.Forall₂ commaRel (TC.renderSep ',' t) (TC.renderSep '.' t) := by
  simp only [TC.renderSep, List.forall₂_cons]
  exact ⟨Or.inl rfl, Or.inl rfl, Or.inl rfl, Or.inl rfl, Or.inl rfl,
    Or.inl rfl, Or.inl rfl, Or.inl rfl, Or.inr ⟨rfl, rfl⟩, Or.inl rfl,
    Or.inl rfl, Or.inl rfl, List.Forall₂.nil⟩

/-- The normalization changes commas to periods only, pointwise. -/
theorem srtSub_sim : ∀ l, List.Forall₂ commaRel l (srtSub l) := by
  refine srtScanInd _ ?_ ?_ ?_
  · exact List.Forall₂.nil
  · intro c cs m rest hm IH
    rw [srtSub_cons_some hm]
    obtain ⟨t, -, hl, hs⟩ := srtMatchAt_some hm
    rw [hl, hs]
    exact forall₂_append_of (renderSep_sim t) IH
  · intro c cs hm IH
    rw [srtSub_cons_none hm]
    exact List.Forall₂.cons (commaRel_refl c) IH

theorem forall₂_drop {R : Char → Char → Prop} :
    ∀ (n : Nat) {u v : List Char}, List.Forall₂ R u v →
      List.Forall₂ R (u.drop n) (v.drop n) := by
  intro n
  induction n with
  | zero => intro u v h; simpa
  | succ n IH =>
    intro u v h
    cases h with
    | nil => exact List.Forall₂.nil
    | cons hr ht => simpa using IH ht

/-- An SRT match in the rewritten line pulls back to a match with the
same span (hence the same replacement) in the original line: a matching
span contains no period, so the comma relation forces equality there. -/
theorem srtMatchAt_transfer {u v m r : List Char}
    (hsim : List.Forall₂ commaRel u v) (hv : srtMatchAt v = some (m, r)) :
    ∃ r', srtMatchAt u = some (m, r') := by
  obtain ⟨t, ht, hveq, hm⟩ := srtMatchAt_some hv
  rw [hveq, show TC.renderSep ',' t ++ r = t.h1 :: t.h2 :: ':' :: t.m1 :: t.m2 ::
    ':' :: t.s1 :: t.s2 :: ',' :: t.ms1 :: t.ms2 :: t.ms3 :: r
    from by simp [TC.renderSep]] at hsim
  simp only [TC.digitsOk, Bool.and_eq_true] at ht
  obtain ⟨ht1, ht2, ht3, ht4, ht5, ht6, ht7, ht8, ht9⟩ := ht
  obtain ⟨c1, u1, rfl, r1, hsim⟩ := forall₂_cons_inv hsim
  obtain ⟨c2, u2, rfl, r2, hsim⟩ := forall₂_cons_inv hsim
  obtain ⟨c3, u3, rfl, r3, hsim⟩ := forall₂_cons_inv hsim
  obtain ⟨c4, u4, rfl, r4, hsim⟩ := forall₂_cons_inv hsim
  obtain ⟨c5, u5, rfl, r5, hsim⟩ := forall₂_cons_inv hsim
  obtain ⟨c6, u6, rfl, r6, hsim⟩ := forall₂_cons_inv hsim
  obtain ⟨c7, u7, rfl, r7, hsim⟩ := forall₂_cons_inv hsim
  obtain ⟨c8, u8, rfl, r8, hsim⟩ := forall₂_cons_inv hsim
  obtain ⟨c9, u9, rfl, r9, hsim⟩ := forall₂_cons_inv hsim
  obtain ⟨c10, u10, rfl, r10, hsim⟩ := forall₂_cons_inv hsim
  obtain ⟨c11, u11, rfl, r11, hsim⟩ := forall₂_cons_inv hsim
  obtain ⟨c12, u12, rfl, r12, hsim⟩ := forall₂_cons_inv hsim
  have e1 := commaRel_eq r1 (digit_ne_dot ht1)
  have e2 := commaRel_eq r2 (digit_ne_dot ht2)
  have e3 := commaRel_eq r3 (by decide)
  have e4 := commaRel_eq r4 (digit_ne_dot ht3)
  have e5 := commaRel_eq r5 (digit_ne_dot ht4)
  have e6 := commaRel_eq r6 (by decide)
  have e7 := commaRel_eq r7 (digit_ne_dot ht5)
  have e8 := commaRel_eq r8 (digit_ne_dot ht6)
  have e9 := commaRel_eq r9 (by decide)
  have e10 := commaRel_eq r10 (digit_ne_dot ht7)
  have e11 := commaRel_eq r11 (digit_ne_dot ht8)
  have e12 := commaRel_eq r12 (digit_ne_dot ht9)
  subst e1; subst e2; subst e3; subst e4; subst e5; subst e6
  subst e7; subst e8; subst e9; subst e10; subst e11; subst e12
  refine ⟨u12, ?_⟩
  rw [show t.h1 :: t.h2 :: ':' :: t.m1 :: t.m2 :: ':' :: t.s1 :: t.s2 :: ',' ::
    t.ms1 :: t.ms2 :: t.ms3 :: u12 = TC.renderSep ',' t ++ u12
    from by simp [TC.renderSep]]
  rw [srtMatchAt_render t u12 (by
    simp [TC.digitsOk, ht1, ht2, ht3, ht4, ht5, ht6, ht7, ht8, ht9])]
  rw [hm]

/-- Each scan point of a line is a match position, and in the output the
corresponding span is the rewritten (period) timecode followed by the
rewrite of the remainder. -/
theorem srtScanPts_spec :
    ∀ l : List Char, ∀ j ∈ srtScanPts l, ∃ m r,
      srtMatchAt (l.drop j) = some (m, r) ∧ (srtSub l).drop j = m ++ srtSub r := by
  refine srtScanInd (fun l => ∀ j ∈ srtScanPts l, ∃ m r,
    srtMatchAt (l.drop j) = some (m, r) ∧ (srtSub l).drop j = m ++ srtSub r)
    ?_ ?_ ?_
  · intro j hj
    rw [srtScanPts_nil] at hj
    simp at hj
  · intro c cs m rest hm IH j hj
    rw [srtScanPts_cons_some hm] at hj
    rcases List.mem_cons.mp hj with rfl | hj'
    · exact ⟨m, rest, by simpa using hm, by rw [srtSub_cons_some hm]; rfl⟩
    · obtain ⟨k, hk, rfl⟩ := List.mem_map.mp hj'
      obtain ⟨m', r', hm', hd⟩ := IH k hk
      obtain ⟨t, ht, hshape, hdm⟩ := srtMatchAt_some hm
      refine ⟨m', r', ?_, ?_⟩
      · rw [hshape, show k + 12 = (TC.renderSep ',' t).length + k
          from by rw [renderSep_length]; omega, List.drop_append]
        exact hm'
      · rw [srtSub_cons_some hm, hdm, show k + 12 = (TC.renderSep '.' t).length + k
          from by rw [renderSep_length]; omega, List.drop_append]
        exact hd
  · intro c cs hm IH j hj
    rw [srtScanPts_cons_none hm] at hj
    obtain ⟨k, hk, rfl⟩ := List.mem_map.mp hj
    obtain ⟨m', r', hm', hd⟩ := IH k hk
    refine ⟨m', r', by simpa using hm', ?_⟩
    rw [srtSub_cons_none hm]
    simpa using hd

/-- C10 (counterexample): the SRT punctuation normalization is not
idempotent.  On `12:34:56,789:01:23,456` the first pass rewrites only the
leading occurrence; the rewrite exposes an overlapping occurrence at
offset 10 which the second pass rewrites as well. -/
theorem c10_counterexample :
    srtSub (srtSub "12:34:56,789:01:23,456".toList) ≠
      srtSub "12:34:56,789:01:23,456".toList := by
  decide

/-- C10 (amended): the normalization is idempotent on every line in
which the SRT pattern matches only at the scan's own replacement
positions (no occurrence overlapping a replaced span).  After one pass a
replaced span starts with a period timecode and matches nowhere, so a
second pass changes nothing. -/
theorem c10_amended :
    ∀ x : List Char,
      (∀ i, i < x.length → i ∉ srtScanPts x → srtMatchAt (x.drop i) = none) →
      srtSub (srtSub x) = srtSub x := by
  intro x H
  have hlen : x.length = (srtSub x).length := (srtSub_sim x).length_eq
  refine srtSub_id fun j hj => ?_
  cases hv : srtMatchAt ((srtSub x).drop j) with
  | none => rfl
  | some p =>
    exfalso
    obtain ⟨m, r⟩ := p
    have hsim := forall₂_drop j (srtSub_sim x)
    obtain ⟨r', hu⟩ := srtMatchAt_transfer hsim hv
    by_cases hmem : j ∈ srtScanPts x
    · obtain ⟨m', r'', hm', hd⟩ := srtScanPts_spec x j hmem
      obtain ⟨t, -, -, hdot⟩ := srtMatchAt_some hm'
      rw [hd, hdot, srtMatchAt_dotted] at hv
      exact absurd hv (by simp)
    · rw [H j (by omega) hmem] at hu
      exact absurd hu (by simp)

/-- C10 (witness): the amended statement applied to a well-formed
subtitle line. -/
theorem c10_witness :
    srtSub (srtSub "ab 00:10:01,000 --> 00:10:02,500 cd".toList) =
      srtSub "ab 00:10:01,000 --> 00:10:02,500 cd".toList :=
  c10_amended _ (by decide)

/-! ### Python `str.replace` and base-name derivation: claim C4 -/

theorem isPrefixOf_append (p t : List Char) : p.isPrefixOf (p ++ t) = true := by
  induction p with
  | nil => cases t <;> rfl
  | cons c p IH => simp [List.isPrefixOf, IH]

theorem replaceAllGo_fuel (pat rep : List Char) :
    ∀ f g l, l.length ≤ f → l.length ≤ g →
      replaceAllGo pat rep f l = replaceAllGo pat rep g l := by
  intro f
  induction f with
  | zero =>
    intro g l hf _
    have hl : l = [] := List.eq_nil_of_length_eq_zero (Nat.le_zero.mp hf)
    subst hl
    cases g <;> rfl
  | succ f IH =>
    intro g l hf hg
    cases l with
    | nil => cases g <;> rfl
    | cons c cs =>
      cases g with
      | zero => simp at hg
      | succ g =>
        simp only [List.length_cons] at hf hg
        by_cases hc : pat ≠ [] ∧ pat.isPrefixOf (c :: cs)
        · have hp1 : 0 < pat.length := List.length_pos.mpr hc.1
          have hdl : ((c :: cs).drop pat.length).length = cs.length + 1 - pat.length := by
            simp [List.length_drop]
          simp only [replaceAllGo, if_pos hc]
          rw [IH g _ (by omega) (by omega)]
        · simp only [replaceAllGo, if_neg hc]
          rw [IH g cs (by omega) (by omega)]

theorem replaceAll_nil (pat rep : List Char) : replaceAll pat rep [] = [] := rfl

theorem replaceAll_cons_pos {pat : List Char} (rep : List Char) {c : Char}
    {cs : List Char} (hc : pat ≠ [] ∧ pat.isPrefixOf (c :: cs)) :
    replaceAll pat rep (c :: cs) =
      rep ++ replaceAll pat rep ((c :: cs).drop pat.length) := by
  have hp1 : 0 < pat.length := List.length_pos.mpr hc.1
  show replaceAllGo pat rep (c :: cs).length (c :: cs) = _
  simp only [List.length_cons, replaceAllGo, if_pos hc]
  have hdl : ((c :: cs).drop pat.length).length = cs.length + 1 - pat.length := by
    simp [List.length_drop]
  rw [replaceAllGo_fuel pat rep cs.length ((c :: cs).drop pat.length).length
    ((c :: cs).drop pat.length) (by omega) (le_refl _)]
  rfl

theorem replaceAll_cons_neg {pat : List Char} (rep : List Char) {c : Char}
    {cs : List Char} (hc : ¬(pat ≠ [] ∧ pat.isPrefixOf (c :: cs))) :
    replaceAll pat rep (c :: cs) = c :: replaceAll pat rep cs := by
  show replaceAllGo pat rep (c :: cs).length (c :: cs) = _
  simp only [List.length_cons, replaceAllGo, if_neg hc]
  rfl

/-- Python `str.replace` is the identity on strings containing no occurrence of
the pattern. -/
theorem replaceAll_id {pat rep l : List Char}
    (h : ∀ i, i < l.length → pat.isPrefixOf (l.drop i) = false) :
    replaceAll pat rep l = l := by
  induction l with
  | nil => rfl
  | cons c cs IH =>
    have h0 : pat.isPrefixOf (c :: cs) = false := by simpa using h 0 (by simp)
    rw [replaceAll_cons_neg rep (by simp [h0])]
    rw [IH fun i hi => by simpa using h (i + 1) (by simpa using hi)]

theorem replaceAll_append {pat rep p t : List Char}
    (hp : ∀ i, i < p.length → pat.isPrefixOf ((p ++ t).drop i) = false) :
    replaceAll pat rep (p ++ t) = p ++ replaceAll pat rep t := by
  induction p with
  | nil => simp
  | cons c p IH =>
    rw [List.cons_append]
    have h0 : pat.isPrefixOf (c :: (p ++ t)) = false := by simpa using hp 0 (by simp)
    rw [replaceAll_cons_neg rep (by simp [h0])]
    rw [IH fun i hi => by simpa using hp (i + 1) (by simpa using hi)]
    simp

theorem replaceAll_head {pat : List Char} (rep t : List Char) (hne : pat ≠ []) :
    replaceAll pat rep (pat ++ t) = rep ++ replaceAll pat rep t := by
  obtain ⟨c, cs, rfl⟩ : ∃ c cs, pat = c :: cs := by
    cases pat with
    | nil => exact absurd rfl hne
    | cons c cs => exact ⟨c, cs, rfl⟩
  rw [List.cons_append]
  rw [replaceAll_cons_pos rep ⟨hne, by
    rw [← List.cons_append]; exact isPrefixOf_append (c :: cs) t⟩]
  have hd : (c :: (cs ++ t)).drop (c :: cs).length = t := by
    simp only [List.length_cons, List.drop_succ_cons]
    exact List.drop_left cs t
  rw [hd]

theorem replaceAll_self {pat : List Char} (rep : List Char) (hne : pat ≠ []) :
    replaceAll pat rep pat = rep := by
  have h := replaceAll_head rep [] hne
  simpa [replaceAll_nil] using h

/-- C4 (counterexample): Python `str.replace` removes every occurrence,
not just a trailing extension.  `a.vtt.vtt` derives base name `a`, not
`a.vtt`; `b.srt.srt` derives `b`, not `b.srt`. -/
theorem c4_counterexample :
    baseNameVtt "a.vtt.vtt".toList = "a".toList ∧
    baseNameVtt "a.vtt.vtt".toList ≠ "a.vtt".toList ∧
    baseNameSrt "b.srt.srt".toList = "b".toList ∧
    baseNameSrt "b.srt.srt".toList ≠ "b.srt".toList := by
  exact ⟨by decide, by decide, by decide, by decide⟩

/-- C4 (amended): the derivation removes every occurrence of
`.mp4.vtt`, then every occurrence of `.vtt` (resp. every occurrence of
`.srt`).  For file names whose only occurrences are the single trailing
extension, this equals stripping that trailing extension and nothing
else changes. -/
theorem c4_amended :
    (∀ stem : List Char,
      (∀ i, i < stem.length →
        ".mp4.vtt".toList.isPrefixOf ((stem ++ ".mp4.vtt".toList).drop i) = false) →
      (∀ i, i < stem.length → ".vtt".toList.isPrefixOf (stem.drop i) = false) →
      baseNameVtt (stem ++ ".mp4.vtt".toList) = stem) ∧
    (∀ stem : List Char,
      (∀ i, i < (stem ++ ".vtt".toList).length →
        ".mp4.vtt".toList.isPrefixOf ((stem ++ ".vtt".toList).drop i) = false) →
      (∀ i, i < stem.length →
        ".vtt".toList.isPrefixOf ((stem ++ ".vtt".toList).drop i) = false) →
      baseNameVtt (stem ++ ".vtt".toList) = stem) ∧
    (∀ stem : List Char,
      (∀ i, i < stem.length →
        ".srt".toList.isPrefixOf ((stem ++ ".srt".toList).drop i) = false) →
      baseNameSrt (stem ++ ".srt".toList) = stem) := by
  refine ⟨?_, ?_, ?_⟩
  · intro stem h1 h2
    unfold baseNameVtt
    rw [replaceAll_append h1, replaceAll_self _ (by decide), List.append_nil]
    exact replaceAll_id h2
  · intro stem h1 h2
    unfold baseNameVtt
    rw [replaceAll_id h1, replaceAll_append h2, replaceAll_self _ (by decide),
      List.append_nil]
  · intro stem h1
    unfold baseNameSrt
    rw [replaceAll_append h1, replaceAll_self _ (by decide), List.append_nil]

/-- C4 (witness): the amended statement applied to the usual names. -/
theorem c4_witness :
    baseNameVtt ("show".toList ++ ".mp4.vtt".toList) = "show".toList ∧
    baseNameSrt ("clip".toList ++ ".srt".toList) = "clip".toList :=
  ⟨c4_amended.1 "show".toList (by decide) (by decide),
   c4_amended.2.2 "clip".toList (by decide)⟩

/-! ### Output naming: claim C5 -/

/-- C5 (counterexample): the sequential policy does not use the
configured prefix verbatim — it strips surrounding whitespace.  With
configured prefix `" ep "` and index 1 the output is `out/ep1.vtt`, not
`out/ ep 1.vtt`. -/
theorem c5_counterexample :
    rename_file true " ep ".toList false none "out".toList "base".toList 1 =
      "out/ep1.vtt".toList ∧
    rename_file true " ep ".toList false none "out".toList "base".toList 1 ≠
      "out/ ep 1.vtt".toList := by
  exact ⟨by decide, by decide⟩

/-- C5 (amended): the three naming policies are mutually exclusive with
precedence sequential, then interactive rename, then default; sequential
yields `{strip(prefix)}{index}.vtt` (the configured prefix is whitespace
stripped, possibly to empty), a blank or cancelled rename answer yields
`{base}.vtt`, a nonblank answer yields `{strip(answer)}_{index}.vtt`,
and the default yields `{base}_{index}.vtt`; the name is joined with the
output directory. -/
theorem c5_amended :
    ∀ (sequential renameOpt : Bool) (prefixStr : List Char)
      (answer : Option (List Char)) (outdir base : List Char) (index : Nat),
      (sequential = true →
        rename_file sequential prefixStr renameOpt answer outdir base index =
          pathJoin outdir (pyStrip prefixStr ++ natToChars index ++ ".vtt".toList)) ∧
      (sequential = false → renameOpt = true →
        (answer = none ∨ ∃ a, answer = some a ∧ pyStrip a = []) →
        rename_file sequential prefixStr renameOpt answer outdir base index =
          pathJoin outdir (base ++ ".vtt".toList)) ∧
      (sequential = false → renameOpt = true →
        ∀ a, answer = some a → pyStrip a ≠ [] →
        rename_file sequential prefixStr renameOpt answer outdir base index =
          pathJoin outdir (pyStrip a ++ '_' :: natToChars index ++ ".vtt".toList)) ∧
      (sequential = false → renameOpt = false →
        rename_file sequential prefixStr renameOpt answer outdir base index =
          pathJoin outdir (base ++ '_' :: natToChars index ++ ".vtt".toList)) := by
  intro sequential renameOpt prefixStr answer outdir base index
  refine ⟨?_, ?_, ?_, ?_⟩
  · rintro rfl
    by_cases hp : pyStrip prefixStr = []
    · simp [rename_file, hp]
    · simp [rename_file, hp]
  · rintro rfl rfl hans
    rcases hans with rfl | ⟨a, rfl, ha⟩
    · simp [rename_file]
    · simp [rename_file, ha]
  · rintro rfl rfl a rfl ha
    simp [rename_file, ha]
  · rintro rfl rfl
    simp [rename_file]

/-- C5 (witness): the default policy at base `movie`, index 2. -/
theorem c5_witness :
    rename_file false "".toList false none "out".toList "movie".toList 2 =
      pathJoin "out".toList ("movie".toList ++ '_' :: natToChars 2 ++ ".vtt".toList) :=
  (c5_amended false false "".toList none "out".toList "movie".toList 2).2.2.2 rfl rfl

/-! ### Batch accounting: claims C6 and C7 -/

theorem tally_nil : tally [] = (0, 0) := rfl

theorem tally_go (l : List Bool) : ∀ p f : Nat,
    l.foldl (fun pf r => if r then (pf.1 + 1, pf.2) else (pf.1, pf.2 + 1)) (p, f) =
      (p + (tally l).1, f + (tally l).2) := by
  induction l with
  | nil => intro p f; simp [tally]
  | cons r rs IH =>
    intro p f
    simp only [List.foldl_cons]
    cases r
    · show List.foldl _ (p, f + 1) rs = _
      rw [IH p (f + 1)]
      have ht : tally (false :: rs) = (0 + (tally rs).1, 1 + (tally rs).2) := by
        show List.foldl _ (0, 1) rs = _
        exact IH 0 1
      rw [ht]
      show (p + (tally rs).1, f + 1 + (tally rs).2) =
        (p + (0 + (tally rs).1), f + (1 + (tally rs).2))
      rw [Nat.zero_add]
      rw [show f + 1 + (tally rs).2 = f + (1 + (tally rs).2) from by omega]
    · show List.foldl _ (p + 1, f) rs = _
      rw [IH (p + 1) f]
      have ht : tally (true :: rs) = (1 + (tally rs).1, 0 + (tally rs).2) := by
        show List.foldl _ (1, 0) rs = _
        exact IH 1 0
      rw [ht]
      show (p + 1 + (tally rs).1, f + (tally rs).2) =
        (p + (1 + (tally rs).1), f + (0 + (tally rs).2))
      rw [Nat.zero_add]
      rw [show p + 1 + (tally rs).1 = p + (1 + (tally rs).1) from by omega]

theorem tally_cons_false (rs : List Bool) :
    tally (false :: rs) = ((tally rs).1, (tally rs).2 + 1) := by
  show List.foldl _ (0, 1) rs = _
  rw [tally_go rs 0 1, Nat.zero_add, Nat.add_comm 1 (tally rs).2]

theorem tally_cons_true (rs : List Bool) :
    tally (true :: rs) = ((tally rs).1 + 1, (tally rs).2) := by
  show List.foldl _ (1, 0) rs = _
  rw [tally_go rs 1 0, Nat.zero_add, Nat.add_comm 1 (tally rs).1]

theorem tally_sum (l : List Bool) : (tally l).1 + (tally l).2 = l.length := by
  induction l with
  | nil => rfl
  | cons r rs IH =>
    rw [List.length_cons]
    cases r
    · rw [tally_cons_false]
      show (tally rs).1 + ((tally rs).2 + 1) = rs.length + 1
      omega
    · rw [tally_cons_true]
      show (tally rs).1 + 1 + (tally rs).2 = rs.length + 1
      omega

theorem tally_append (l₁ l₂ : List Bool) :
    (tally (l₁ ++ l₂)).1 = (tally l₁).1 + (tally l₂).1 ∧
    (tally (l₁ ++ l₂)).2 = (tally l₁).2 + (tally l₂).2 := by
  induction l₁ with
  | nil => constructor <;> simp [tally_nil]
  | cons r rs IH =>
    rw [List.cons_append]
    cases r
    · constructor
      · rw [tally_cons_false, tally_cons_false]
        show (tally (rs ++ l₂)).1 = (tally rs).1 + (tally l₂).1
        exact IH.1
      · rw [tally_cons_false, tally_cons_false]
        show (tally (rs ++ l₂)).2 + 1 = (tally rs).2 + 1 + (tally l₂).2
        rw [IH.2]
        omega
    · constructor
      · rw [tally_cons_true, tally_cons_true]
        show (tally (rs ++ l₂)).1 + 1 = (tally rs).1 + 1 + (tally l₂).1
        rw [IH.1]
        omega
      · rw [tally_cons_true, tally_cons_true]
        show (tally (rs ++ l₂)).2 = (tally rs).2 + (tally l₂).2
        exact IH.2

/-- C6: over any nonempty batch of per-file outcomes, folded in
submission order exactly as both the sequential and the thread-pool
loops do, the success and failure counts sum to the number of files, and
the counts over any split of the batch add — an early failure cannot
affect how the remaining tasks are counted. -/
theorem c6_counts :
    ∀ outcomes : List Bool, outcomes ≠ [] →
      (tally outcomes).1 + (tally outcomes).2 = outcomes.length ∧
      ∀ pre post : List Bool, outcomes = pre ++ post →
        (tally outcomes).1 = (tally pre).1 + (tally post).1 ∧
        (tally outcomes).2 = (tally pre).2 + (tally post).2 := by
  intro outcomes _
  refine ⟨tally_sum outcomes, ?_⟩
  rintro pre post rfl
  exact ⟨(tally_append pre post).1, (tally_append pre post).2⟩

/-- C6 (witness): a batch of three files with one failure. -/
theorem c6_witness :
    (tally [true, false, true]).1 + (tally [true, false, true]).2 = 3 :=
  (c6_counts [true, false, true] (by simp)).1

/-- C7 (counterexample): on a host reporting a single CPU the pool size
is `min(1, 4) = 1`, below the bound of 2 asserted by the claim. -/
theorem c7_counterexample :
    poolWorkers (some 1) = 1 ∧ ¬(2 ≤ poolWorkers (some 1)) := by decide

/-- C7 (amended): the pool path is taken exactly when concurrency is
enabled and more than one file is queued; the pool size is
`min(cpu_count, 4)` with 2 substituted when the count is unavailable
(or zero); it is at least 2 whenever the reported count is at least 2,
but equals 1 on a single-CPU host; it never exceeds 4. -/
theorem c7_amended :
    (∀ (u : Bool) (n : Nat), usesThreadPool u n = true ↔ (u = true ∧ 1 < n)) ∧
    poolWorkers none = 2 ∧
    (∀ n : Nat, 1 ≤ n → poolWorkers (some n) = min n 4) ∧
    (∀ n : Nat, 2 ≤ n → 2 ≤ poolWorkers (some n)) ∧
    (∀ c : Option Nat, 1 ≤ poolWorkers c ∧ poolWorkers c ≤ 4) := by
  refine ⟨?_, rfl, ?_, ?_, ?_⟩
  · intro u n
    simp [usesThreadPool]
  · intro n hn
    show min (if n = 0 then 2 else n) 4 = min n 4
    rw [if_neg (by omega)]
  · intro n hn
    show 2 ≤ min (if n = 0 then 2 else n) 4
    rw [if_neg (by omega)]
    omega
  · intro c
    cases c with
    | none => exact ⟨by decide, by decide⟩
    | some n =>
      show 1 ≤ min (if n = 0 then 2 else n) 4 ∧ min (if n = 0 then 2 else n) 4 ≤ 4
      by_cases h : n = 0
      · subst h; exact ⟨by decide, by decide⟩
      · rw [if_neg h]
        constructor <;> omega

/-- C7 (witness): the amended statement at concrete pool parameters. -/
theorem c7_witness :
    usesThreadPool true 3 = true ∧ poolWorkers (some 8) = min 8 4 ∧
      2 ≤ poolWorkers (some 2) :=
  ⟨(c7_amended.1 true 3).mpr ⟨rfl, by omega⟩, c7_amended.2.2.1 8 (by omega),
   c7_amended.2.2.2.1 2 (by omega)⟩

end VTTProc
